import Mathlib

/-!
Verification of the candidate-management core of decomp-permuter
(src/candidate.py).

The Python module manages `Candidate` objects: each wraps a pycparser
`FileAST` whose top-level declaration list (`ast.ext`) is shared with a
cached original, except for a deep-copied target function node.  Because
the interesting properties are about Python object aliasing (shallow copy
of the `FileAST`, shallow copy of the `ext` list, deep copy of the
function node), we embed the state as an explicit heap of three kinds of
cells:

  * node cells   — one cell per top-level AST node; the node's *content*
                   is abstracted as a `Nat` identifier, since every
                   operation of the module treats node contents opaquely
                   (the randomizer mutates a node in place, the renderer
                   reads contents; both are external collaborators and are
                   passed in as function parameters);
  * ext cells    — one cell per Python list object used as `ast.ext`,
                   holding the list of node-cell references;
  * file cells   — one cell per `FileAST` object, holding the reference
                   to its `ext` list cell.

`copy.copy(ast)` allocates a fresh file cell with the same ext reference;
`copy.copy(ast.ext)` allocates a fresh ext cell with the same element
references; `copy.deepcopy(orig_fn)` allocates a fresh node cell carrying
the same content (one cell per function subtree is faithful at the
granularity the module uses: the subtree is only ever deep-copied whole or
mutated in place through the randomizer).

External collaborators, modelled at their interface boundary:
  * the Tree Normalizer (`CParser().parse`, `ast_util.extract_fn`,
    `ast_util.normalize_ast`) is a parameter
    `P : String → String → Option (List Nat × Nat)` giving the
    normalized top-level node contents and the target function index
    (`none` models a parse/extraction failure);
  * the Randomization Engine (`Randomizer`) is a parameter
    `E : Nat → Nat → Option (Nat × Nat)` mapping the engine state and
    the target function content to the mutated content and next state
    (`none` models a randomization failure; per the engine's contract a
    failure leaves the tree unchanged — full mutation or no change);
  * the Renderer (`ast_util.to_c`) is a parameter
    `render : List Nat → String`, a pure function of tree content;
  * the Scorer is a parameter `S : Option String → Option (Int × String)`
    (`none` models a raised scoring failure).
-/

set_option maxHeartbeats 1000000
set_option linter.unnecessarySimpa false
set_option linter.unusedVariables false

namespace DP

/-! Node contents and cell references are both plain `Nat`: contents are
abstract identifiers, references index into the heap's cell stores. -/

/-- The heap of Python objects relevant to candidate.py: node cells
(contents of top-level AST nodes), ext cells (Python list objects used
as `ast.ext`), file cells (`FileAST` objects holding an ext reference). -/
structure Heap where
  nodes : List Nat
  exts : List (List Nat)
  files : List Nat
deriving DecidableEq, Repr

/-- Content of the node cell at reference `r`. -/
def nodeAt (h : Heap) (r : Nat) : Nat := h.nodes.getD r 0

/-- Element references of the ext-list cell at reference `r`. -/
def extAt (h : Heap) (r : Nat) : List Nat := h.exts.getD r []

/-- The ext reference stored in the file cell at reference `r`. -/
def fileAt (h : Heap) (r : Nat) : Nat := h.files.getD r 0

/-- In-place mutation of the node cell at reference `r`. -/
def setNode (h : Heap) (r : Nat) (n : Nat) : Heap :=
  { h with nodes := h.nodes.set r n }

/-- The dereferenced content of a `FileAST`: the contents of the nodes its
ext list refers to.  Rendering a tree is a pure function of this value. -/
def derefFile (h : Heap) (f : Nat) : List Nat :=
  (extAt h (fileAt h f)).map (nodeAt h)

/-! ### The shared-tree cache (`Candidate._cached_shared_ast`)

`@functools.lru_cache(maxsize=16)` keyed on the exact `(source, fn_name)`
string pair.  The cache is represented as a list of entries in
most-recently-used-first order; a hit moves the entry to the front, a miss
computes, inserts at the front and keeps the first 16 entries (so the
least-recently-used entry is dropped).  A raised exception is never
memoized by `lru_cache`. -/

/-- One memoized result of `_cached_shared_ast`: the key pair together
with the returned triple `(orig_fn, fn_index, ast)` (as heap references
for the function node and the `FileAST`). -/
structure CacheEntry where
  source : String
  fnName : String
  fnRef : Nat
  fnIndex : Nat
  astRef : Nat
deriving DecidableEq, Repr

/-- The process-local cache state, most-recently-used first. -/
abbrev Cache := List CacheEntry

/-- Exact textual equality of the memoization key. -/
def entryMatches (s fn : String) (e : CacheEntry) : Bool :=
  e.source == s && e.fnName == fn

/-- Key lookup in the cache. -/
def cacheLookup (c : Cache) (s fn : String) : Option CacheEntry :=
  c.find? (entryMatches s fn)

/-- On a hit, `lru_cache` moves the entry to the most-recently-used
position. -/
def cacheTouch (c : Cache) (s fn : String) : Cache :=
  match cacheLookup c s fn with
  | none => c
  | some e => e :: c.eraseP (entryMatches s fn)

/-- Whole-process state of the embedding: the object heap plus the
`lru_cache` state of `_cached_shared_ast`. -/
structure SysState where
  heap : Heap
  cache : Cache
deriving DecidableEq, Repr

/-- `Candidate._cached_shared_ast(source, fn_name)`, instrumented with a
flag recording whether the underlying normalizer (parser + `extract_fn` +
`normalize_ast`, the parameter `P`) was invoked.  On a miss with a
successful parse the normalized top-level node contents are allocated as
fresh node cells, one ext cell and one file cell; the entry records the
function node reference `base + idx` (i.e. `ast.ext[fn_index]`, which is
what `extract_fn` returns).  A parse failure (`P … = none`) propagates and
leaves the state unchanged: `lru_cache` does not memoize exceptions. -/
def cachedSharedAst (P : String → String → Option (List Nat × Nat))
    (st : SysState) (s fn : String) : Option CacheEntry × SysState × Bool :=
  match cacheLookup st.cache s fn with
  | some e => (some e, { st with cache := cacheTouch st.cache s fn }, false)
  | none =>
    match P s fn with
    | none => (none, st, true)
    | some (contents, idx) =>
      let base := st.heap.nodes.length
      let nodeRefs := (List.range contents.length).map (fun j => base + j)
      let er := st.heap.exts.length
      let fr := st.heap.files.length
      let entry : CacheEntry :=
        { source := s, fnName := fn, fnRef := base + idx, fnIndex := idx,
          astRef := fr }
      (some entry,
       { heap := { nodes := st.heap.nodes ++ contents,
                   exts := st.heap.exts ++ [nodeRefs],
                   files := st.heap.files ++ [er] },
         cache := (entry :: st.cache).take 16 }, true)

/-! ### Candidate -/

/-- The `Candidate` dataclass.  `randState` is the internal state of the
bound `Randomizer(rng_seed)` instance; `cacheSource` is the
`_cache_source` field. -/
structure Candidate where
  ast : Nat
  orig_fn : Nat
  fn_index : Nat
  rng_seed : Nat
  randState : Nat
  score_value : Option Int
  score_hash : Option String
  cacheSource : Option String
deriving DecidableEq, Repr

/-- `Candidate.from_source(source, fn_name, rng_seed)`.  The `Bool` flag
is the normalizer-invocation flag of `cachedSharedAst`; `none` models the
propagated parse/extraction failure.  The heap steps mirror the source
lines:

  * `ast = copy.copy(ast)` — a fresh file cell sharing the cached ext
    reference;
  * `ast.ext = copy.copy(ast.ext)` — a fresh ext cell with the same
    element references, stored into the fresh file cell;
  * `ast.ext[fn_index] = copy.deepcopy(orig_fn)` — a fresh node cell with
    the original function content, stored into slot `fn_index` of the
    fresh ext cell. -/
def from_source (P : String → String → Option (List Nat × Nat))
    (st : SysState) (source fn_name : String) (rng_seed : Nat) :
    Option (Candidate × SysState × Bool) :=
  match cachedSharedAst P st source fn_name with
  | (none, _, _) => none
  | (some e, st1, invoked) =>
    let h := st1.heap
    let f' := h.files.length
    let h1 : Heap := { h with files := h.files ++ [fileAt h e.astRef] }
    let er := fileAt h1 f'
    let e' := h1.exts.length
    let h2 : Heap := { h1 with exts := h1.exts ++ [extAt h1 er] }
    let h3 : Heap := { h2 with files := h2.files.set f' e' }
    let n' := h3.nodes.length
    let h4 : Heap := { h3 with nodes := h3.nodes ++ [nodeAt h3 e.fnRef] }
    let h5 : Heap := { h4 with exts := h4.exts.set e' ((extAt h4 e').set e.fnIndex n') }
    some ({ ast := f', orig_fn := e.fnRef, fn_index := e.fnIndex,
            rng_seed := rng_seed, randState := rng_seed,
            score_value := none, score_hash := none, cacheSource := none },
          { st1 with heap := h5 }, invoked)

/-- `Candidate.randomize_ast()`.  The engine `E` mutates the target
function node (the node at `self.ast`'s ext slot `self.fn_index`) in
place and advances its state; on engine failure the exception propagates
before `self._cache_source = None` runs, so the error result carries the
heap and the candidate exactly as they were (the engine's contract is
full-mutation-or-no-change; this component adds no rollback). -/
def randomize_ast (E : Nat → Nat → Option (Nat × Nat)) (h : Heap)
    (c : Candidate) : Except (Heap × Candidate) (Heap × Candidate) :=
  let r := (extAt h (fileAt h c.ast)).getD c.fn_index 0
  match E c.randState (nodeAt h r) with
  | none => .error (h, c)
  | some (n', s') =>
    .ok (setNode h r n', { c with randState := s', cacheSource := none })

/-- `Candidate.get_source()`, instrumented with a flag recording whether
the renderer (`ast_util.to_c`, the parameter `render`) was invoked. -/
def get_source (render : List Nat → String) (h : Heap) (c : Candidate) :
    String × Candidate × Bool :=
  match c.cacheSource with
  | some s => (s, c, false)
  | none =>
    let s := render (derefFile h c.ast)
    (s, { c with cacheSource := some s }, true)

/-! ### Scoring and artifact cleanup -/

/-- Modelled from the spec: `try_remove` (defined in the repository's
`src/helpers.py`, whose source is not included here) removes the artifact
file from persistent storage, ignoring a missing file.  The filesystem is
the list of existing paths. -/
def try_remove (fs : List String) (p : String) : List String :=
  fs.filter (fun q => q ≠ p)

/-- Python truthiness of an `Optional[str]`: `None` and the empty string
are falsy. -/
def strOptTruthy : Option String → Bool
  | none => false
  | some s => s ≠ ""

/-- The `CandidateResult` dataclass.  The `profiler` field (a fresh
default `Profiler`, defined outside this module and never read by it) is
modelled as opaque. -/
structure CandidateResult where
  score : Int
  hash : String
  source : Option String
  profiler : Unit
deriving DecidableEq, Repr

/-- `Candidate.score(scorer, o_file)`.  Clears `score_value` and
`score_hash`, invokes the scorer inside a `try`/`finally` whose `finally`
removes the artifact whenever `o_file` is truthy, and on success stores
the pair and builds a `CandidateResult` from it and `get_source()`.  A
scorer failure propagates (the error result carries the candidate state
at the raise — both score fields cleared — and the filesystem after the
`finally` cleanup). -/
def score (S : Option String → Option (Int × String))
    (render : List Nat → String) (h : Heap) (fs : List String)
    (c : Candidate) (o_file : Option String) :
    Except (Candidate × List String) (CandidateResult × Candidate × List String) :=
  let c0 := { c with score_value := (none : Option Int), score_hash := (none : Option String) }
  let fs' := if strOptTruthy o_file then try_remove fs (o_file.getD "") else fs
  match S o_file with
  | none => .error (c0, fs')
  | some (v, hsh) =>
    let c1 := { c0 with score_value := some v, score_hash := some hsh }
    let g := get_source render h c1
    .ok ({ score := v, hash := hsh, source := some g.1, profiler := () }, g.2.1, fs')

/-! ### Well-formedness and heap extension -/

/-- The file cell `f` is a well-formed tree with a valid slot `i`: its
references stay within the heap and the slot index is in range. -/
def TreeWF (h : Heap) (f : Nat) (i : Nat) : Prop :=
  f < h.files.length ∧ fileAt h f < h.exts.length ∧
    (∀ r ∈ extAt h (fileAt h f), r < h.nodes.length) ∧
    i < (extAt h (fileAt h f)).length

/-- A cache entry is well formed when its tree is and its stored function
reference really is the ext slot at its function index (`extract_fn`
returns `ast.ext[fn_index]`). -/
def EntryWF (h : Heap) (e : CacheEntry) : Prop :=
  TreeWF h e.astRef e.fnIndex ∧
    (extAt h (fileAt h e.astRef)).getD e.fnIndex 0 = e.fnRef

/-- System-state well-formedness: the cache respects the `lru_cache`
bound and every entry is well formed on the heap. -/
def StateWF (st : SysState) : Prop :=
  st.cache.length ≤ 16 ∧ ∀ e ∈ st.cache, EntryWF st.heap e

/-- Contract of the Tree Normalizer: the returned function index lies
within the returned top-level declaration list (`extract_fn` finds the
function inside `ast.ext`). -/
def ParserWF (P : String → String → Option (List Nat × Nat)) : Prop :=
  ∀ s fn l i, P s fn = some (l, i) → i < l.length

/-- Every cache entry arose from a successful normalizer run. -/
def CacheOK (P : String → String → Option (List Nat × Nat)) (c : Cache) : Prop :=
  ∀ e ∈ c, (P e.source e.fnName).isSome

/-- Heap extension: every store has only been appended to.  All the
allocation performed by `cachedSharedAst` and `from_source` extends the
heap in this sense. -/
def HExt (h h' : Heap) : Prop :=
  (∃ l, h'.nodes = h.nodes ++ l) ∧ (∃ l, h'.exts = h.exts ++ l) ∧
    (∃ l, h'.files = h.files ++ l)

/-! ### Closed form of candidate construction -/

/-- The net heap effect of the three copy steps of `from_source`, given
the entry's base heap: one fresh node cell carrying the original function
content, one fresh ext cell equal to the cached ext list with the
function slot redirected to the fresh node, one fresh file cell pointing
at the fresh ext cell. -/
def buildHeap (h : Heap) (e : CacheEntry) : Heap :=
  { nodes := h.nodes ++ [nodeAt h e.fnRef],
    exts := h.exts ++ [(extAt h (fileAt h e.astRef)).set e.fnIndex h.nodes.length],
    files := h.files ++ [h.exts.length] }

/-- The candidate value `from_source` returns, given the entry's base
heap. -/
def buildCandVal (h : Heap) (e : CacheEntry) (seed : Nat) : Candidate :=
  { ast := h.files.length, orig_fn := e.fnRef, fn_index := e.fnIndex,
    rng_seed := seed, randState := seed,
    score_value := none, score_hash := none, cacheSource := none }

/-! ### Concrete fixtures used by witness and counterexample theorems -/

/-- A tiny normalizer accepting one (source, function) pair: three
top-level nodes with the target function at index 1. -/
def wParser : String → String → Option (List Nat × Nat) :=
  fun s fn => if s = "src" ∧ fn = "f" then some ([10, 20, 30], 1) else none

/-- The empty initial state of a worker process. -/
def wState : SysState :=
  { heap := { nodes := [], exts := [], files := [] }, cache := [] }

/-- A deterministic rendering of dereferenced tree content. -/
def wRender : List Nat → String := fun l => toString l

/-- An always-succeeding randomization engine. -/
def wEngine : Nat → Nat → Option (Nat × Nat) := fun st n => some (n + 1, st + 1)

/-- An always-failing randomization engine. -/
def wFailEngine : Nat → Nat → Option (Nat × Nat) := fun _ _ => none

/-- A scorer that fails on an absent artifact and succeeds otherwise. -/
def wScorer : Option String → Option (Int × String) :=
  fun o => match o with
  | none => none
  | some _ => some (1, "fp")

/-- A candidate whose rendered-source cache is populated. -/
def wCachedCand : Candidate :=
  { ast := 0, orig_fn := 0, fn_index := 0, rng_seed := 0, randState := 0,
    score_value := none, score_hash := none, cacheSource := some "stale" }

/-- A one-node heap for the scoring and randomization witnesses. -/
def wHeap : Heap := { nodes := [7], exts := [[0]], files := [0] }

/-- A candidate with no cached rendering and stale score fields. -/
def wCand : Candidate :=
  { ast := 0, orig_fn := 0, fn_index := 0, rng_seed := 0, randState := 0,
    score_value := some 5, score_hash := some "old", cacheSource := none }

/-- Sixteen cache entries with pairwise distinct keys, for exercising the
least-recently-used bound. -/
def wFullCache : Cache :=
  (List.range 16).map (fun i =>
    { source := Nat.repr i, fnName := "f", fnRef := 0, fnIndex := 0, astRef := 0 })

/-- The cache entry created by normalizing ("src", "f") through `wParser`
from the empty state (value fixed by computation). -/
def wEntry : CacheEntry :=
  { source := "src", fnName := "f", fnRef := 1, fnIndex := 1, astRef := 0 }

/-- The candidate produced by the first construction from `wParser` and
`wState` with seed 1. -/
def wC1 : Candidate :=
  { ast := 1, orig_fn := 1, fn_index := 1, rng_seed := 1, randState := 1,
    score_value := none, score_hash := none, cacheSource := none }

/-- The candidate produced by a second construction with seed 2. -/
def wC2 : Candidate :=
  { ast := 2, orig_fn := 1, fn_index := 1, rng_seed := 2, randState := 2,
    score_value := none, score_hash := none, cacheSource := none }

/-- The state after the first construction. -/
def wSt1 : SysState :=
  { heap := { nodes := [10, 20, 30, 20], exts := [[0, 1, 2], [0, 3, 2]],
              files := [0, 1] },
    cache := [wEntry] }

/-- The state after the second construction. -/
def wSt2 : SysState :=
  { heap := { nodes := [10, 20, 30, 20, 20],
              exts := [[0, 1, 2], [0, 3, 2], [0, 4, 2]],
              files := [0, 1, 2] },
    cache := [wEntry] }

/-- The heap after wC1's successful randomization in wSt2: only wC1's
private node cell (reference 3) changed. -/
def wH3 : Heap :=
  { nodes := [10, 20, 30, 21, 20], exts := [[0, 1, 2], [0, 3, 2], [0, 4, 2]],
    files := [0, 1, 2] }

/-- wC1 after that randomization. -/
def wC1r : Candidate :=
  { ast := 1, orig_fn := 1, fn_index := 1, rng_seed := 1, randState := 2,
    score_value := none, score_hash := none, cacheSource := none }

/-- wCand after a successful randomization in wHeap. -/
def wRandCand : Candidate :=
  { ast := 0, orig_fn := 0, fn_index := 0, rng_seed := 0, randState := 1,
    score_value := some 5, score_hash := some "old", cacheSource := none }

/-- wCand after a successful scoring pass. -/
def wScoredCand : Candidate :=
  { ast := 0, orig_fn := 0, fn_index := 0, rng_seed := 0, randState := 0,
    score_value := some 1, score_hash := some "fp", cacheSource := some "[7]" }

/-- wCand with its score pair cleared. -/
def wClearedCand : Candidate :=
  { ast := 0, orig_fn := 0, fn_index := 0, rng_seed := 0, randState := 0,
    score_value := none, score_hash := none, cacheSource := none }

/-- An entry and state for the cache-hit witnesses. -/
def wHitEntry : CacheEntry :=
  { source := "src", fnName := "f", fnRef := 0, fnIndex := 0, astRef := 0 }

/-- A state whose cache holds exactly `wHitEntry`. -/
def wHitState : SysState := { heap := wHeap, cache := [wHitEntry] }

/-- A state with a full 16-entry cache. -/
def wFullState : SysState := { heap := wHeap, cache := wFullCache }

/-! ### List lemmas used throughout -/

theorem getD_append_left {α : Type} (l₁ l₂ : List α) (i : Nat) (d : α)
    (h : i < l₁.length) : (l₁ ++ l₂).getD i d = l₁.getD i d := by
  induction l₁ generalizing i with
  | nil => exact absurd h (by simp)
  | cons a t ih =>
    cases i with
    | zero => rfl
    | succ n =>
      simpa using ih n (Nat.lt_of_succ_lt_succ h)

theorem getD_append_mid {α : Type} (l₁ l₂ : List α) (a : α) (d : α) :
    (l₁ ++ a :: l₂).getD l₁.length d = a := by
  induction l₁ with
  | nil => rfl
  | cons b t ih => simpa using ih

theorem set_append_length {α : Type} (l l₂ : List α) (a b : α) :
    (l ++ a :: l₂).set l.length b = l ++ b :: l₂ := by
  induction l with
  | nil => rfl
  | cons c t ih => simpa using ih

theorem getD_set_self {α : Type} (l : List α) (i : Nat) (a d : α)
    (h : i < l.length) : (l.set i a).getD i d = a := by
  induction l generalizing i with
  | nil => exact absurd h (by simp)
  | cons b t ih =>
    cases i with
    | zero => rfl
    | succ n => simpa using ih n (Nat.lt_of_succ_lt_succ h)

theorem getD_set_ne {α : Type} (l : List α) (i j : Nat) (a d : α)
    (h : i ≠ j) : (l.set i a).getD j d = l.getD j d := by
  induction l generalizing i j with
  | nil => rfl
  | cons b t ih =>
    cases i with
    | zero =>
      cases j with
      | zero => exact absurd rfl h
      | succ m => rfl
    | succ n =>
      cases j with
      | zero => rfl
      | succ m => simpa using ih n m (fun hnm => h (by simp [hnm]))

theorem map_set {α β : Type} (f : α → β) (l : List α) (i : Nat) (a : α) :
    (l.set i a).map f = (l.map f).set i (f a) := by
  induction l generalizing i with
  | nil => rfl
  | cons b t ih =>
    cases i with
    | zero => rfl
    | succ n => simpa using ih n

theorem set_getD_eq_self {α : Type} (l : List α) (i : Nat) (d : α)
    (h : i < l.length) : l.set i (l.getD i d) = l := by
  induction l generalizing i with
  | nil => rfl
  | cons b t ih =>
    cases i with
    | zero => rfl
    | succ n => simpa using ih n (Nat.lt_of_succ_lt_succ h)

theorem mem_of_mem_set {α : Type} (l : List α) (i : Nat) (a b : α)
    (h : b ∈ l.set i a) : b = a ∨ b ∈ l := by
  induction l generalizing i with
  | nil => simp at h
  | cons c t ih =>
    cases i with
    | zero =>
      rcases (List.mem_cons).1 h with h1 | h1
      · exact Or.inl h1
      · exact Or.inr (List.mem_cons_of_mem _ h1)
    | succ n =>
      rcases (List.mem_cons).1 h with h1 | h1
      · exact Or.inr (h1 ▸ List.mem_cons_self _ _)
      · rcases ih n h1 with h2 | h2
        · exact Or.inl h2
        · exact Or.inr (List.mem_cons_of_mem _ h2)

theorem getD_mem {α : Type} (l : List α) (i : Nat) (d : α)
    (h : i < l.length) : l.getD i d ∈ l := by
  induction l generalizing i with
  | nil => exact absurd h (by simp)
  | cons b t ih =>
    cases i with
    | zero => exact List.mem_cons_self _ _
    | succ n => exact List.mem_cons_of_mem _ (ih n (Nat.lt_of_succ_lt_succ h))

theorem getD_range_map (n b i : Nat) (f : Nat → Nat) (d : Nat) (h : i < n) :
    (((List.range n).map f).getD i d) = f i := by
  have h1 : ((List.range n).map f).getD i d = (((List.range n).map f)[i]?).getD d := by
    simp [List.getD]
  rw [h1, List.getElem?_map, List.getElem?_range h]
  rfl

theorem HExt.refl (h : Heap) : HExt h h :=
  ⟨⟨[], by simp⟩, ⟨[], by simp⟩, ⟨[], by simp⟩⟩

theorem HExt.trans {h1 h2 h3 : Heap} (a : HExt h1 h2) (b : HExt h2 h3) :
    HExt h1 h3 := by
  obtain ⟨⟨n1, hn1⟩, ⟨e1, he1⟩, ⟨f1, hf1⟩⟩ := a
  obtain ⟨⟨n2, hn2⟩, ⟨e2, he2⟩, ⟨f2, hf2⟩⟩ := b
  exact ⟨⟨n1 ++ n2, by simp [hn2, hn1]⟩, ⟨e1 ++ e2, by simp [he2, he1]⟩,
    ⟨f1 ++ f2, by simp [hf2, hf1]⟩⟩

theorem HExt.nodes_le {h h' : Heap} (a : HExt h h') :
    h.nodes.length ≤ h'.nodes.length := by
  obtain ⟨⟨l, hl⟩, _, _⟩ := a
  simp [hl]

theorem HExt.exts_le {h h' : Heap} (a : HExt h h') :
    h.exts.length ≤ h'.exts.length := by
  obtain ⟨_, ⟨l, hl⟩, _⟩ := a
  simp [hl]

theorem HExt.files_le {h h' : Heap} (a : HExt h h') :
    h.files.length ≤ h'.files.length := by
  obtain ⟨_, _, ⟨l, hl⟩⟩ := a
  simp [hl]

theorem HExt.nodeAt_eq {h h' : Heap} (a : HExt h h') {r : Nat}
    (hr : r < h.nodes.length) : nodeAt h' r = nodeAt h r := by
  obtain ⟨⟨l, hl⟩, _, _⟩ := a
  simp only [nodeAt, hl]
  exact getD_append_left _ _ _ _ hr

theorem HExt.extAt_eq {h h' : Heap} (a : HExt h h') {r : Nat}
    (hr : r < h.exts.length) : extAt h' r = extAt h r := by
  obtain ⟨_, ⟨l, hl⟩, _⟩ := a
  simp only [extAt, hl]
  exact getD_append_left _ _ _ _ hr

theorem HExt.fileAt_eq {h h' : Heap} (a : HExt h h') {r : Nat}
    (hr : r < h.files.length) : fileAt h' r = fileAt h r := by
  obtain ⟨_, _, ⟨l, hl⟩⟩ := a
  simp only [fileAt, hl]
  exact getD_append_left _ _ _ _ hr

theorem EntryWF_mono {h h' : Heap} {e : CacheEntry} (a : HExt h h')
    (w : EntryWF h e) : EntryWF h' e := by
  obtain ⟨⟨hf, he, hr, hi⟩, hfn⟩ := w
  have h1 : fileAt h' e.astRef = fileAt h e.astRef := a.fileAt_eq hf
  have h2 : extAt h' (fileAt h' e.astRef) = extAt h (fileAt h e.astRef) := by
    rw [h1]; exact a.extAt_eq he
  refine ⟨⟨Nat.lt_of_lt_of_le hf a.files_le, ?_, ?_, ?_⟩, ?_⟩
  · rw [h1]; exact Nat.lt_of_lt_of_le he a.exts_le
  · intro r hrr
    rw [h2] at hrr
    exact Nat.lt_of_lt_of_le (hr r hrr) a.nodes_le
  · rw [h2]; exact hi
  · rw [h2]; exact hfn

/-- The dereferenced content of a well-formed tree is unchanged by heap
extension. -/
theorem derefFile_mono {h h' : Heap} {f : Nat} {i : Nat} (a : HExt h h')
    (w : TreeWF h f i) : derefFile h' f = derefFile h f := by
  obtain ⟨hf, he, hr, _⟩ := w
  have h1 : fileAt h' f = fileAt h f := a.fileAt_eq hf
  have h2 : extAt h' (fileAt h f) = extAt h (fileAt h f) := a.extAt_eq he
  simp only [derefFile, h1, h2]
  exact List.map_congr_left fun r hrr => a.nodeAt_eq (hr r hrr)

/-! ### Cache lemmas -/

theorem find?_eraseP_length {α : Type} (l : List α) (p : α → Bool) (a : α)
    (h : l.find? p = some a) : (l.eraseP p).length + 1 = l.length := by
  induction l with
  | nil => simp at h
  | cons b t ih =>
    by_cases hb : p b = true
    · simp [List.eraseP_cons_of_pos hb]
    · rw [List.find?_cons_of_neg t hb] at h
      simp [List.eraseP_cons_of_neg hb, ih h]

theorem cacheLookup_key {c : Cache} {s fn : String} {e : CacheEntry}
    (h : cacheLookup c s fn = some e) : e.source = s ∧ e.fnName = fn := by
  have h1 := List.find?_some h
  simp only [entryMatches, Bool.and_eq_true, beq_iff_eq] at h1
  exact h1

theorem cacheLookup_mem {c : Cache} {s fn : String} {e : CacheEntry}
    (h : cacheLookup c s fn = some e) : e ∈ c :=
  List.mem_of_find?_eq_some h

theorem cacheLookup_cons_self {c : Cache} {s fn : String} {e : CacheEntry}
    (hs : e.source = s) (hfn : e.fnName = fn) :
    cacheLookup (e :: c) s fn = some e := by
  have hm : entryMatches s fn e = true := by
    simp [entryMatches, hs, hfn]
  show List.find? (entryMatches s fn) (e :: c) = some e
  exact List.find?_cons_of_pos c hm

theorem cacheTouch_lookup {c : Cache} {s fn : String} {e : CacheEntry}
    (h : cacheLookup c s fn = some e) :
    cacheLookup (cacheTouch c s fn) s fn = some e := by
  obtain ⟨hs, hfn⟩ := cacheLookup_key h
  simp only [cacheTouch, h]
  exact cacheLookup_cons_self hs hfn

theorem cacheTouch_length {c : Cache} {s fn : String} {e : CacheEntry}
    (h : cacheLookup c s fn = some e) :
    (cacheTouch c s fn).length = c.length := by
  simp only [cacheTouch, h, List.length_cons]
  exact find?_eraseP_length c (entryMatches s fn) e h

theorem cacheTouch_subset {c : Cache} {s fn : String} {x : CacheEntry}
    (h : x ∈ cacheTouch c s fn) : x ∈ c := by
  simp only [cacheTouch] at h
  rcases hlk : cacheLookup c s fn with _ | e
  · rw [hlk] at h; exact h
  · rw [hlk] at h
    rcases (List.mem_cons).1 h with h1 | h1
    · exact h1 ▸ cacheLookup_mem hlk
    · exact List.mem_of_mem_eraseP h1

/-- Hit behavior of `cachedSharedAst`: the stored triple is returned, the
normalizer is not invoked, the heap is untouched and the entry is moved
to the most-recently-used position. -/
theorem cachedSharedAst_hit (P : String → String → Option (List Nat × Nat))
    {st : SysState} {s fn : String} {e : CacheEntry}
    (h : cacheLookup st.cache s fn = some e) :
    cachedSharedAst P st s fn =
      (some e, { st with cache := cacheTouch st.cache s fn }, false) := by
  simp only [cachedSharedAst, h]

/-- Every successful `cachedSharedAst` call returns a well-formed entry
that a repeated lookup finds at the front, preserves state
well-formedness and only extends the heap. -/
theorem cachedSharedAst_ok {P : String → String → Option (List Nat × Nat)}
    {st : SysState} {s fn : String} {e : CacheEntry} {st' : SysState} {b : Bool}
    (hwf : StateWF st) (hP : ParserWF P)
    (h : cachedSharedAst P st s fn = (some e, st', b)) :
    EntryWF st'.heap e ∧ cacheLookup st'.cache s fn = some e ∧
      StateWF st' ∧ HExt st.heap st'.heap := by
  rcases hlk : cacheLookup st.cache s fn with _ | e0
  · -- miss: P must have succeeded
    rcases hp : P s fn with _ | ⟨contents, idx⟩
    · simp [cachedSharedAst, hlk, hp] at h
    · simp only [cachedSharedAst, hlk, hp, Prod.mk.injEq, Option.some.injEq] at h
      obtain ⟨he, hst, hb⟩ := h
      subst he
      subst hst
      have hidx : idx < contents.length := hP s fn contents idx hp
      have hfile : fileAt
          { nodes := st.heap.nodes ++ contents,
            exts := st.heap.exts ++ [(List.range contents.length).map (fun j => st.heap.nodes.length + j)],
            files := st.heap.files ++ [st.heap.exts.length] }
          st.heap.files.length = st.heap.exts.length := by
        simp only [fileAt]
        exact getD_append_mid _ [] _ _
      have hextv : extAt
          { nodes := st.heap.nodes ++ contents,
            exts := st.heap.exts ++ [(List.range contents.length).map (fun j => st.heap.nodes.length + j)],
            files := st.heap.files ++ [st.heap.exts.length] }
          st.heap.exts.length =
          (List.range contents.length).map (fun j => st.heap.nodes.length + j) := by
        simp only [extAt]
        exact getD_append_mid _ [] _ _
      have hwfe : EntryWF
          { nodes := st.heap.nodes ++ contents,
            exts := st.heap.exts ++ [(List.range contents.length).map (fun j => st.heap.nodes.length + j)],
            files := st.heap.files ++ [st.heap.exts.length] }
          { source := s, fnName := fn, fnRef := st.heap.nodes.length + idx,
            fnIndex := idx, astRef := st.heap.files.length } := by
        refine ⟨⟨by simp, ?_, ?_, ?_⟩, ?_⟩
        · rw [hfile]; simp
        · rw [hfile, hextv]
          intro r hr
          simp only [List.mem_map, List.mem_range] at hr
          obtain ⟨j, hj, rfl⟩ := hr
          show st.heap.nodes.length + j < (st.heap.nodes ++ contents).length
          rw [List.length_append]
          omega
        · rw [hfile, hextv]
          simpa using hidx
        · rw [hfile, hextv]
          exact getD_range_map contents.length 0 idx _ 0 hidx
      have hext : HExt st.heap
          { nodes := st.heap.nodes ++ contents,
            exts := st.heap.exts ++ [(List.range contents.length).map (fun j => st.heap.nodes.length + j)],
            files := st.heap.files ++ [st.heap.exts.length] } :=
        ⟨⟨contents, rfl⟩, ⟨_, rfl⟩, ⟨_, rfl⟩⟩
      refine ⟨hwfe, ?_, ⟨?_, ?_⟩, hext⟩
      · show cacheLookup (List.take 16 (_ :: st.cache)) s fn = _
        rw [List.take_succ_cons]
        exact cacheLookup_cons_self rfl rfl
      · simpa using Nat.min_le_left 16 _
      · intro x hx
        have hx' := List.take_subset _ _ hx
        rcases (List.mem_cons).1 hx' with h1 | h1
        · exact h1 ▸ hwfe
        · exact EntryWF_mono hext (hwf.2 x h1)
  · -- hit
    simp only [cachedSharedAst, hlk, Prod.mk.injEq, Option.some.injEq] at h
    obtain ⟨he, hst, hb⟩ := h
    subst he
    subst hst
    refine ⟨hwf.2 e0 (cacheLookup_mem hlk), cacheTouch_lookup hlk,
      ⟨?_, ?_⟩, HExt.refl _⟩
    · show (cacheTouch st.cache s fn).length ≤ 16
      rw [cacheTouch_length hlk]
      exact hwf.1
    · intro x hx
      exact hwf.2 x (cacheTouch_subset hx)

theorem buildHeap_HExt (h : Heap) (e : CacheEntry) : HExt h (buildHeap h e) :=
  ⟨⟨_, rfl⟩, ⟨_, rfl⟩, ⟨_, rfl⟩⟩

theorem buildHeap_fileAt_new (h : Heap) (e : CacheEntry) :
    fileAt (buildHeap h e) h.files.length = h.exts.length := by
  simp only [fileAt, buildHeap]
  exact getD_append_mid _ [] _ _

theorem buildHeap_extAt_new (h : Heap) (e : CacheEntry) :
    extAt (buildHeap h e) h.exts.length =
      (extAt h (fileAt h e.astRef)).set e.fnIndex h.nodes.length := by
  simp only [extAt, buildHeap]
  exact getD_append_mid _ [] _ _

theorem buildHeap_nodeAt_new (h : Heap) (e : CacheEntry) :
    nodeAt (buildHeap h e) h.nodes.length = nodeAt h e.fnRef := by
  simp only [nodeAt, buildHeap]
  exact getD_append_mid _ [] _ _

/-- `from_source` in closed form: whenever the shared-AST call returns
entry `e` with state `st1`, the constructed candidate is
`buildCandVal st1.heap e seed` and the final heap is
`buildHeap st1.heap e`. -/
theorem from_source_eq (P : String → String → Option (List Nat × Nat))
    {st : SysState} {s fn : String} (seed : Nat) {e : CacheEntry}
    {st1 : SysState} {b : Bool}
    (hc : cachedSharedAst P st s fn = (some e, st1, b)) :
    from_source P st s fn seed =
      some (buildCandVal st1.heap e seed,
            { heap := buildHeap st1.heap e, cache := st1.cache }, b) := by
  simp only [from_source, hc, buildHeap, buildCandVal, extAt, fileAt, nodeAt,
    getD_append_mid, set_append_length]

theorem TreeWF_mono {h h' : Heap} {f : Nat} {i : Nat} (a : HExt h h')
    (w : TreeWF h f i) : TreeWF h' f i := by
  obtain ⟨hf, he, hr, hi⟩ := w
  have h1 : fileAt h' f = fileAt h f := a.fileAt_eq hf
  have h2 : extAt h' (fileAt h f) = extAt h (fileAt h f) := a.extAt_eq he
  refine ⟨Nat.lt_of_lt_of_le hf a.files_le, ?_, ?_, ?_⟩
  · rw [h1]; exact Nat.lt_of_lt_of_le he a.exts_le
  · intro r hrr
    rw [h1, h2] at hrr
    exact Nat.lt_of_lt_of_le (hr r hrr) a.nodes_le
  · rw [h1, h2]; exact hi

theorem setNode_fileAt (h : Heap) (r : Nat) (n : Nat) (x : Nat) :
    fileAt (setNode h r n) x = fileAt h x := rfl

theorem setNode_extAt (h : Heap) (r : Nat) (n : Nat) (x : Nat) :
    extAt (setNode h r n) x = extAt h x := rfl

theorem setNode_nodeAt_ne (h : Heap) {r x : Nat} (n : Nat) (hne : r ≠ x) :
    nodeAt (setNode h r n) x = nodeAt h x :=
  getD_set_ne _ _ _ _ _ hne

/-- Mutating a node cell that is not reachable from the file `f` leaves
the dereferenced content of `f` unchanged. -/
theorem derefFile_setNode {h : Heap} {f : Nat} {r : Nat} (n : Nat)
    (hr : ∀ x ∈ extAt h (fileAt h f), x ≠ r) :
    derefFile (setNode h r n) f = derefFile h f := by
  simp only [derefFile, setNode_fileAt, setNode_extAt]
  exact List.map_congr_left fun x hx =>
    setNode_nodeAt_ne h n fun hh => (hr x hx) hh.symm

theorem getD_map_inbounds {α β : Type} (f : α → β) (l : List α) (i : Nat)
    (d : α) (d' : β) (h : i < l.length) :
    (l.map f).getD i d' = f (l.getD i d) := by
  induction l generalizing i with
  | nil => exact absurd h (by simp)
  | cons a t ih =>
    cases i with
    | zero => rfl
    | succ n => simpa using ih n (Nat.lt_of_succ_lt_succ h)

/-- The constructed candidate is a well-formed tree on the built heap. -/
theorem buildCand_TreeWF {h : Heap} {e : CacheEntry} (w : EntryWF h e) :
    TreeWF (buildHeap h e) h.files.length e.fnIndex := by
  obtain ⟨⟨hf, he, hr, hi⟩, hfn⟩ := w
  refine ⟨by simp [buildHeap], ?_, ?_, ?_⟩
  · rw [buildHeap_fileAt_new]
    simp [buildHeap]
  · rw [buildHeap_fileAt_new, buildHeap_extAt_new]
    intro r hrr
    rcases mem_of_mem_set _ _ _ _ hrr with h1 | h1
    · subst h1
      simp [buildHeap]
    · have h2 : r < h.nodes.length := hr r h1
      show r < (h.nodes ++ [nodeAt h e.fnRef]).length
      rw [List.length_append]
      omega
  · rw [buildHeap_fileAt_new, buildHeap_extAt_new]
    simpa using hi

/-- A freshly constructed candidate dereferences to exactly the cached
tree's content: the deep-copied slot carries the original function
content and every other slot is shared. -/
theorem buildCand_deref {h : Heap} {e : CacheEntry} (w : EntryWF h e) :
    derefFile (buildHeap h e) h.files.length = derefFile h e.astRef := by
  obtain ⟨⟨hf, he, hr, hi⟩, hfn⟩ := w
  have hx := buildHeap_HExt h e
  have h1 : fileAt (buildHeap h e) e.astRef = fileAt h e.astRef :=
    hx.fileAt_eq hf
  have h2 : extAt (buildHeap h e) (fileAt h e.astRef) = extAt h (fileAt h e.astRef) :=
    hx.extAt_eq he
  simp only [derefFile, buildHeap_fileAt_new, buildHeap_extAt_new, h1, h2]
  rw [map_set, buildHeap_nodeAt_new]
  have h3 : (extAt h (fileAt h e.astRef)).map (nodeAt (buildHeap h e)) =
      (extAt h (fileAt h e.astRef)).map (nodeAt h) :=
    List.map_congr_left fun r hrr => hx.nodeAt_eq (hr r hrr)
  rw [h3]
  have h4 : nodeAt h e.fnRef =
      ((extAt h (fileAt h e.astRef)).map (nodeAt h)).getD e.fnIndex (nodeAt h 0) := by
    rw [getD_map_inbounds (nodeAt h) _ e.fnIndex 0 _ hi, hfn]
  rw [h4]
  exact set_getD_eq_self _ _ _ (by simpa using hi)

/-! ### Small frame lemmas about get_source -/

theorem get_source_score_value (render : List Nat → String) (h : Heap)
    (c : Candidate) :
    (get_source render h c).2.1.score_value = c.score_value := by
  cases hc : c.cacheSource <;> simp [get_source, hc]

theorem get_source_score_hash (render : List Nat → String) (h : Heap)
    (c : Candidate) :
    (get_source render h c).2.1.score_hash = c.score_hash := by
  cases hc : c.cacheSource <;> simp [get_source, hc]

/-! ### The claims -/

/-- C7: for every candidate, two consecutive calls to the
source-rendering operation with no intervening randomize() return
identical text, and the renderer is invoked at most once across the two
calls — the second call returns the memoized rendering and never invokes
the renderer. -/
theorem c7_rendering_idempotent_cached (render : List Nat → String)
    (h : Heap) (c : Candidate) :
    (get_source render h ((get_source render h c).2.1)).1 =
      (get_source render h c).1 ∧
    (get_source render h ((get_source render h c).2.1)).2.2 = false ∧
    (if (get_source render h c).2.2 then 1 else 0) +
      (if (get_source render h ((get_source render h c).2.1)).2.2 then 1 else 0) ≤ 1 := by
  cases hc : c.cacheSource <;> simp [get_source, hc]

/-- C5 counterexample: the claim says every randomize() call invalidates
the cached rendered source even when the engine fails; in the code the
invalidating assignment runs after the engine call, so when the engine
raises, the candidate state at propagation still carries the old cached
rendering. -/
theorem c5_counterexample :
    randomize_ast wFailEngine wHeap wCachedCand = .error (wHeap, wCachedCand) ∧
    wCachedCand.cacheSource = some "stale" := by
  constructor
  · rfl
  · rfl

/-- C5 (amended): a successful randomize() unconditionally invalidates
the cached rendered source; when the Randomization Engine signals
failure, the failure propagates before the invalidation runs, so the
cached rendered source — like the rest of the candidate and (by the
engine's full-mutation-or-no-change contract) the tree — is left exactly
as it was. -/
theorem c5_randomize_invalidation (E : Nat → Nat → Option (Nat × Nat))
    (h : Heap) (c : Candidate) :
    (∀ h' c', randomize_ast E h c = .ok (h', c') → c'.cacheSource = none) ∧
    (∀ h' c', randomize_ast E h c = .error (h', c') → h' = h ∧ c' = c) := by
  constructor
  · intro h' c' heq
    simp only [randomize_ast] at heq
    rcases hE : E c.randState
        (nodeAt h ((extAt h (fileAt h c.ast)).getD c.fn_index 0)) with _ | ⟨n', s'⟩ <;>
      rw [hE] at heq
    · exact absurd heq (by simp)
    · simp only [Except.ok.injEq, Prod.mk.injEq] at heq
      rw [← heq.2]
  · intro h' c' heq
    simp only [randomize_ast] at heq
    rcases hE : E c.randState
        (nodeAt h ((extAt h (fileAt h c.ast)).getD c.fn_index 0)) with _ | ⟨n', s'⟩ <;>
      rw [hE] at heq
    · simp only [Except.error.injEq, Prod.mk.injEq] at heq
      exact ⟨heq.1.symm, heq.2.symm⟩
    · exact absurd heq (by simp)

/-- C2: whenever score() is called with a present (truthy) artifact path,
the artifact is removed from persistent storage after the scoring
attempt, on the success path and on the failure path alike — the removal
sits on every exit path of the scoring call. -/
theorem c2_artifact_always_removed (S : Option String → Option (Int × String))
    (render : List Nat → String) (h : Heap) (fs : List String)
    (c : Candidate) (p : String) (hp : p ≠ "") :
    (∀ res c' fs', score S render h fs c (some p) = .ok (res, c', fs') →
        p ∉ fs') ∧
    (∀ c' fs', score S render h fs c (some p) = .error (c', fs') →
        p ∉ fs') := by
  have htr : p ∉ try_remove fs p := by
    intro hmem
    rw [try_remove, List.mem_filter] at hmem
    simp at hmem
  have hcond : (if strOptTruthy (some p) then try_remove fs ((some p).getD "")
      else fs) = try_remove fs p := by
    simp [strOptTruthy, hp]
  constructor
  · intro res c' fs' heq
    simp only [score] at heq
    rcases hS : S (some p) with _ | ⟨v, hsh⟩ <;> rw [hS] at heq
    · exact absurd heq (by simp)
    · simp only [Except.ok.injEq, Prod.mk.injEq] at heq
      rw [← heq.2.2, hcond]
      exact htr
  · intro c' fs' heq
    simp only [score] at heq
    rcases hS : S (some p) with _ | ⟨v, hsh⟩ <;> rw [hS] at heq
    · simp only [Except.error.injEq, Prod.mk.injEq] at heq
      rw [← heq.2, hcond]
      exact htr
    · exact absurd heq (by simp)

/-- C3: score and fingerprint are always both set or both unset: score()
sets both together on success (to the values carried by the returned
result) and leaves both cleared when the scorer raises; construction
yields both unset; randomize_ast and get_source never touch the pair. -/
theorem c3_score_fingerprint_in_sync
    (S : Option String → Option (Int × String)) (render : List Nat → String)
    (P : String → String → Option (List Nat × Nat))
    (E : Nat → Nat → Option (Nat × Nat)) (h : Heap) (fs : List String)
    (c : Candidate) (o : Option String) (st : SysState) (s fn : String)
    (seed : Nat) :
    (∀ res c' fs', score S render h fs c o = .ok (res, c', fs') →
        c'.score_value = some res.score ∧ c'.score_hash = some res.hash) ∧
    (∀ c' fs', score S render h fs c o = .error (c', fs') →
        c'.score_value = none ∧ c'.score_hash = none) ∧
    (∀ c' st' b, from_source P st s fn seed = some (c', st', b) →
        c'.score_value = none ∧ c'.score_hash = none) ∧
    (∀ h' c', randomize_ast E h c = .ok (h', c') →
        c'.score_value = c.score_value ∧ c'.score_hash = c.score_hash) ∧
    (∀ h' c', randomize_ast E h c = .error (h', c') →
        c'.score_value = c.score_value ∧ c'.score_hash = c.score_hash) ∧
    ((get_source render h c).2.1.score_value = c.score_value ∧
      (get_source render h c).2.1.score_hash = c.score_hash) := by
  refine ⟨?_, ?_, ?_, ?_, ?_, ?_, ?_⟩
  · intro res c' fs' heq
    simp only [score] at heq
    rcases hS : S o with _ | ⟨v, hsh⟩ <;> rw [hS] at heq
    · exact absurd heq (by simp)
    · simp only [Except.ok.injEq, Prod.mk.injEq] at heq
      rw [← heq.2.1, ← heq.1]
      rw [get_source_score_value, get_source_score_hash]
      exact ⟨rfl, rfl⟩
  · intro c' fs' heq
    simp only [score] at heq
    rcases hS : S o with _ | ⟨v, hsh⟩ <;> rw [hS] at heq
    · simp only [Except.error.injEq, Prod.mk.injEq] at heq
      rw [← heq.1]
      exact ⟨rfl, rfl⟩
    · exact absurd heq (by simp)
  · intro c' st' b heq
    rcases hc : cachedSharedAst P st s fn with ⟨oe, st1, b1⟩
    cases oe with
    | none => rw [from_source, hc] at heq; exact absurd heq (by simp)
    | some e =>
      rw [from_source_eq P seed hc] at heq
      simp only [Option.some.injEq, Prod.mk.injEq] at heq
      rw [← heq.1]
      exact ⟨rfl, rfl⟩
  · intro h' c' heq
    simp only [randomize_ast] at heq
    rcases hE : E c.randState
        (nodeAt h ((extAt h (fileAt h c.ast)).getD c.fn_index 0)) with _ | ⟨n', s'⟩ <;>
      rw [hE] at heq
    · exact absurd heq (by simp)
    · simp only [Except.ok.injEq, Prod.mk.injEq] at heq
      rw [← heq.2]
      exact ⟨rfl, rfl⟩
  · intro h' c' heq
    simp only [randomize_ast] at heq
    rcases hE : E c.randState
        (nodeAt h ((extAt h (fileAt h c.ast)).getD c.fn_index 0)) with _ | ⟨n', s'⟩ <;>
      rw [hE] at heq
    · simp only [Except.error.injEq, Prod.mk.injEq] at heq
      rw [← heq.2]
      exact ⟨rfl, rfl⟩
    · exact absurd heq (by simp)
  · exact get_source_score_value render h c
  · exact get_source_score_hash render h c

/-- C10: when score() is given an absent artifact value (`None` or the
empty string), no removal is attempted — the filesystem is unchanged on
both exit paths — and the scorer is still invoked on that absent value,
the call's outcome being exactly the scorer's verdict on it. -/
theorem c10_absent_artifact_no_removal
    (S : Option String → Option (Int × String)) (render : List Nat → String)
    (h : Heap) (fs : List String) (c : Candidate) (o : Option String)
    (habs : o = none ∨ o = some "") :
    (∀ c' fs', score S render h fs c o = .error (c', fs') →
        fs' = fs ∧ S o = none) ∧
    (∀ res c' fs', score S render h fs c o = .ok (res, c', fs') →
        fs' = fs ∧ S o = some (res.score, res.hash)) := by
  have htr : strOptTruthy o = false := by
    rcases habs with rfl | rfl <;> simp [strOptTruthy]
  constructor
  · intro c' fs' heq
    simp only [score, htr, if_false] at heq
    rcases hS : S o with _ | ⟨v, hsh⟩ <;> rw [hS] at heq
    · simp only [Except.error.injEq, Prod.mk.injEq] at heq
      exact ⟨heq.2.symm, rfl⟩
    · exact absurd heq (by simp)
  · intro res c' fs' heq
    simp only [score, htr, if_false] at heq
    rcases hS : S o with _ | ⟨v, hsh⟩ <;> rw [hS] at heq
    · exact absurd heq (by simp)
    · simp only [Except.ok.injEq, Prod.mk.injEq] at heq
      rw [← heq.1, ← heq.2.2]
      exact ⟨rfl, rfl⟩

/-- C9: a parse or extraction failure is never memoized: as long as every
cache entry stems from a successful normalizer run, a failing key misses
the cache, invokes the normalizer, propagates the failure with the state
unchanged, an immediate retry invokes the normalizer again, and every
call from such a state again leaves only successfully-normalized entries
in the cache. -/
theorem c9_failure_never_memoized (P : String → String → Option (List Nat × Nat))
    (st : SysState) (s fn : String) (hok : CacheOK P st.cache)
    (hfail : P s fn = none) :
    cachedSharedAst P st s fn = (none, st, true) ∧
    (cachedSharedAst P (cachedSharedAst P st s fn).2.1 s fn).2.2 = true ∧
    (∀ s' fn', CacheOK P (cachedSharedAst P st s' fn').2.1.cache) := by
  have hmiss : cacheLookup st.cache s fn = none := by
    rcases hlk : cacheLookup st.cache s fn with _ | e
    · rfl
    · obtain ⟨hs, hfn⟩ := cacheLookup_key hlk
      have hsome : (P e.source e.fnName).isSome := hok e (cacheLookup_mem hlk)
      rw [hs, hfn, hfail] at hsome
      exact absurd hsome (by simp)
  have hfirst : cachedSharedAst P st s fn = (none, st, true) := by
    simp [cachedSharedAst, hmiss, hfail]
  refine ⟨hfirst, ?_, ?_⟩
  · rw [hfirst]
    rw [hfirst]
  · intro s' fn'
    rcases hlk : cacheLookup st.cache s' fn' with _ | e
    · rcases hp : P s' fn' with _ | ⟨contents, idx⟩
      · simpa [cachedSharedAst, hlk, hp] using hok
      · simp only [cachedSharedAst, hlk, hp]
        intro x hx
        have hx' := List.take_subset _ _ hx
        rcases (List.mem_cons).1 hx' with h1 | h1
        · rw [h1]
          simp [hp]
        · exact hok x h1
    · simp only [cachedSharedAst, hlk]
      intro x hx
      exact hok x (cacheTouch_subset hx)

/-- C6: the shared-tree cache memoizes the normalizer's output on the
exact (source text, function name) pair with textual equality: a hit
returns the stored triple with the heap untouched and the normalizer not
invoked; a miss with a successful parse invokes the normalizer and
stores a new entry for exactly that key at the most-recently-used
position; the entry count never exceeds 16; and a miss into a full
16-entry cache stores the new entry and drops exactly the
least-recently-used (last) one. -/
theorem c6_cache_lru_memoization (P : String → String → Option (List Nat × Nat))
    (st : SysState) (s fn : String) :
    (∀ e, cacheLookup st.cache s fn = some e → e.source = s ∧ e.fnName = fn) ∧
    (∀ e, cacheLookup st.cache s fn = some e →
        cachedSharedAst P st s fn =
          (some e, { heap := st.heap, cache := cacheTouch st.cache s fn }, false)) ∧
    (∀ l i, cacheLookup st.cache s fn = none → P s fn = some (l, i) →
        ∃ e, (cachedSharedAst P st s fn).1 = some e ∧
          (cachedSharedAst P st s fn).2.2 = true ∧
          e.source = s ∧ e.fnName = fn ∧
          (cachedSharedAst P st s fn).2.1.cache = (e :: st.cache).take 16 ∧
          cacheLookup (cachedSharedAst P st s fn).2.1.cache s fn = some e) ∧
    (st.cache.length ≤ 16 → (cachedSharedAst P st s fn).2.1.cache.length ≤ 16) ∧
    (∀ l i, st.cache.length = 16 → cacheLookup st.cache s fn = none →
        P s fn = some (l, i) →
        ∃ e, (cachedSharedAst P st s fn).2.1.cache = e :: st.cache.dropLast) := by
  refine ⟨?_, ?_, ?_, ?_, ?_⟩
  · intro e hlk
    exact cacheLookup_key hlk
  · intro e hlk
    exact cachedSharedAst_hit P hlk
  · intro l i hmiss hp
    refine ⟨{ source := s, fnName := fn, fnRef := st.heap.nodes.length + i,
              fnIndex := i, astRef := st.heap.files.length }, ?_, ?_, rfl, rfl, ?_, ?_⟩
    · simp [cachedSharedAst, hmiss, hp]
    · simp [cachedSharedAst, hmiss, hp]
    · simp [cachedSharedAst, hmiss, hp]
    · simp only [cachedSharedAst, hmiss, hp]
      rw [List.take_succ_cons]
      exact cacheLookup_cons_self rfl rfl
  · intro hlen
    rcases hlk : cacheLookup st.cache s fn with _ | e
    · rcases hp : P s fn with _ | ⟨l, i⟩
      · simpa [cachedSharedAst, hlk, hp] using hlen
      · simp only [cachedSharedAst, hlk, hp]
        simpa using Nat.min_le_left 16 _
    · simp only [cachedSharedAst, hlk]
      rw [cacheTouch_length hlk]
      exact hlen
  · intro l i hlen hmiss hp
    refine ⟨{ source := s, fnName := fn, fnRef := st.heap.nodes.length + i,
              fnIndex := i, astRef := st.heap.files.length }, ?_⟩
    simp only [cachedSharedAst, hmiss, hp]
    rw [List.take_succ_cons, List.dropLast_eq_take, hlen]

theorem EntryWF.fnRef_lt {h : Heap} {e : CacheEntry} (w : EntryWF h e) :
    e.fnRef < h.nodes.length := by
  obtain ⟨⟨hf, he, hr, hi⟩, hfn⟩ := w
  have hm : (extAt h (fileAt h e.astRef)).getD e.fnIndex 0 ∈
      extAt h (fileAt h e.astRef) := getD_mem _ _ _ hi
  rw [hfn] at hm
  exact hr _ hm

/-- C8: for every (source, function name, seed) for which construction
succeeds, building a candidate and immediately rendering its source with
no randomization yields exactly the rendering of the cached tree, and
the candidate's function slot carries the very content of the original
cached function node — the no-mutation round trip through the deep copy
and the renderer is the identity on rendered text. -/
theorem c8_no_mutation_round_trip (P : String → String → Option (List Nat × Nat))
    (render : List Nat → String) (st : SysState) (s fn : String) (seed : Nat)
    (c : Candidate) (st' : SysState) (b : Bool)
    (hwf : StateWF st) (hP : ParserWF P)
    (hfs : from_source P st s fn seed = some (c, st', b)) :
    ∃ e, cacheLookup st'.cache s fn = some e ∧
      (get_source render st'.heap c).1 = render (derefFile st'.heap e.astRef) ∧
      nodeAt st'.heap ((extAt st'.heap (fileAt st'.heap c.ast)).getD c.fn_index 0) =
        nodeAt st'.heap e.fnRef := by
  rcases hc : cachedSharedAst P st s fn with ⟨oe, st1, b1⟩
  cases oe with
  | none => rw [from_source, hc] at hfs; exact absurd hfs (by simp)
  | some e =>
    obtain ⟨hwfe, hlk, hwf1, hx1⟩ := cachedSharedAst_ok hwf hP hc
    rw [from_source_eq P seed hc] at hfs
    simp only [Option.some.injEq, Prod.mk.injEq] at hfs
    obtain ⟨hceq, hsteq, hbeq⟩ := hfs
    subst hceq
    subst hsteq
    have hxB : HExt st1.heap (buildHeap st1.heap e) := buildHeap_HExt st1.heap e
    refine ⟨e, hlk, ?_, ?_⟩
    · show (get_source render (buildHeap st1.heap e) (buildCandVal st1.heap e seed)).1 = _
      have hgs : (get_source render (buildHeap st1.heap e)
          (buildCandVal st1.heap e seed)).1 =
          render (derefFile (buildHeap st1.heap e) st1.heap.files.length) := rfl
      rw [hgs, buildCand_deref hwfe]
      have hdm : derefFile (buildHeap st1.heap e) e.astRef =
          derefFile st1.heap e.astRef := derefFile_mono hxB hwfe.1
      rw [hdm]
    · show nodeAt (buildHeap st1.heap e)
        ((extAt (buildHeap st1.heap e)
          (fileAt (buildHeap st1.heap e) (buildCandVal st1.heap e seed).ast)).getD
            (buildCandVal st1.heap e seed).fn_index 0) = _
      have hfa : fileAt (buildHeap st1.heap e) (buildCandVal st1.heap e seed).ast =
          st1.heap.exts.length := buildHeap_fileAt_new st1.heap e
      rw [hfa, buildHeap_extAt_new]
      have hidx : e.fnIndex < (extAt st1.heap (fileAt st1.heap e.astRef)).length :=
        hwfe.1.2.2.2
      show nodeAt (buildHeap st1.heap e)
        (((extAt st1.heap (fileAt st1.heap e.astRef)).set e.fnIndex
          st1.heap.nodes.length).getD e.fnIndex 0) = _
      rw [getD_set_self _ _ _ _ hidx, buildHeap_nodeAt_new]
      exact (hxB.nodeAt_eq hwfe.fnRef_lt).symm

/-- C4: candidate construction fetches the cached (function node, index,
tree) triple, re-uses the triple's node and index, and makes a tree that
shares the cached content except for a shallow-duplicated container — a
distinct cell whose reference list is the cached one with only the
function slot redirected to a fresh node cell carrying the original
function content (the deep copy) — so that mutating the duplicated slot
never changes the cached original's tree content. -/
theorem c4_copy_on_write_construction (P : String → String → Option (List Nat × Nat))
    (st : SysState) (s fn : String) (seed : Nat)
    (c : Candidate) (st' : SysState) (b : Bool)
    (hwf : StateWF st) (hP : ParserWF P)
    (hfs : from_source P st s fn seed = some (c, st', b)) :
    ∃ e st1 b1, cachedSharedAst P st s fn = (some e, st1, b1) ∧
      c.orig_fn = e.fnRef ∧ c.fn_index = e.fnIndex ∧
      c.ast ≠ e.astRef ∧
      fileAt st'.heap c.ast ≠ fileAt st'.heap e.astRef ∧
      extAt st'.heap (fileAt st'.heap c.ast) =
        (extAt st'.heap (fileAt st'.heap e.astRef)).set e.fnIndex
          st1.heap.nodes.length ∧
      st1.heap.nodes.length ≠ e.fnRef ∧
      nodeAt st'.heap st1.heap.nodes.length = nodeAt st'.heap e.fnRef ∧
      (∀ m, derefFile (setNode st'.heap st1.heap.nodes.length m) e.astRef =
        derefFile st'.heap e.astRef) := by
  rcases hc : cachedSharedAst P st s fn with ⟨oe, st1, b1⟩
  cases oe with
  | none => rw [from_source, hc] at hfs; exact absurd hfs (by simp)
  | some e =>
    obtain ⟨hwfe, hlk, hwf1, hx1⟩ := cachedSharedAst_ok hwf hP hc
    rw [from_source_eq P seed hc] at hfs
    simp only [Option.some.injEq, Prod.mk.injEq] at hfs
    obtain ⟨hceq, hsteq, hbeq⟩ := hfs
    subst hceq
    subst hsteq
    obtain ⟨⟨hf, he, hr, hi⟩, hfn⟩ := hwfe
    have hxB : HExt st1.heap (buildHeap st1.heap e) := buildHeap_HExt st1.heap e
    have hfile1 : fileAt (buildHeap st1.heap e) e.astRef = fileAt st1.heap e.astRef :=
      hxB.fileAt_eq hf
    have hext1 : extAt (buildHeap st1.heap e) (fileAt st1.heap e.astRef) =
        extAt st1.heap (fileAt st1.heap e.astRef) := hxB.extAt_eq he
    refine ⟨e, st1, b1, rfl, rfl, rfl, ?_, ?_, ?_, ?_, ?_, ?_⟩
    · show st1.heap.files.length ≠ e.astRef
      omega
    · show fileAt (buildHeap st1.heap e) st1.heap.files.length ≠
        fileAt (buildHeap st1.heap e) e.astRef
      rw [buildHeap_fileAt_new, hfile1]
      omega
    · show extAt (buildHeap st1.heap e)
          (fileAt (buildHeap st1.heap e) st1.heap.files.length) =
        (extAt (buildHeap st1.heap e) (fileAt (buildHeap st1.heap e) e.astRef)).set
          e.fnIndex st1.heap.nodes.length
      rw [buildHeap_fileAt_new, buildHeap_extAt_new, hfile1, hext1]
    · have hlt : e.fnRef < st1.heap.nodes.length :=
        EntryWF.fnRef_lt ⟨⟨hf, he, hr, hi⟩, hfn⟩
      omega
    · show nodeAt (buildHeap st1.heap e) st1.heap.nodes.length =
        nodeAt (buildHeap st1.heap e) e.fnRef
      rw [buildHeap_nodeAt_new]
      exact (hxB.nodeAt_eq (EntryWF.fnRef_lt ⟨⟨hf, he, hr, hi⟩, hfn⟩)).symm
    · intro m
      show derefFile (setNode (buildHeap st1.heap e) st1.heap.nodes.length m)
          e.astRef = derefFile (buildHeap st1.heap e) e.astRef
      apply derefFile_setNode
      intro x hx
      rw [hfile1, hext1] at hx
      have hxlt : x < st1.heap.nodes.length := hr x hx
      omega

/-- C1: two candidates constructed from the same (source text, function
name) pair are isolated in spite of the shared cached tree: randomizing
the first — whether the engine succeeds or fails — leaves the source
text rendered for the second (before that randomization is applied to
it) unchanged, because the first candidate's mutable slot is a fresh
node cell unreachable from the second candidate's tree. -/
theorem c1_candidates_isolated (P : String → String → Option (List Nat × Nat))
    (E : Nat → Nat → Option (Nat × Nat)) (render : List Nat → String)
    (st0 : SysState) (s fn : String) (seed1 seed2 : Nat)
    (c1 c2 : Candidate) (st1 st2 : SysState) (b1 b2 : Bool)
    (hwf : StateWF st0) (hP : ParserWF P)
    (h1 : from_source P st0 s fn seed1 = some (c1, st1, b1))
    (h2 : from_source P st1 s fn seed2 = some (c2, st2, b2)) :
    (∀ h' c1', randomize_ast E st2.heap c1 = .ok (h', c1') →
        (get_source render h' c2).1 = (get_source render st2.heap c2).1) ∧
    (∀ h' c1', randomize_ast E st2.heap c1 = .error (h', c1') →
        (get_source render h' c2).1 = (get_source render st2.heap c2).1) := by
  rcases hcA : cachedSharedAst P st0 s fn with ⟨oe, stA, bA⟩
  cases oe with
  | none => rw [from_source, hcA] at h1; exact absurd h1 (by simp)
  | some e =>
    obtain ⟨hwfeA, hlkA, hwfA, hxA⟩ := cachedSharedAst_ok hwf hP hcA
    rw [from_source_eq P seed1 hcA] at h1
    simp only [Option.some.injEq, Prod.mk.injEq] at h1
    obtain ⟨hc1, hst1, hb1⟩ := h1
    have hcand1 : c1 = buildCandVal stA.heap e seed1 := hc1.symm
    have hheap1 : st1.heap = buildHeap stA.heap e := by rw [← hst1]
    -- the second construction hits the cache on the same entry
    have hlk1 : cacheLookup st1.cache s fn = some e := by
      rw [← hst1]
      exact hlkA
    have hcB : cachedSharedAst P st1 s fn =
        (some e, { st1 with cache := cacheTouch st1.cache s fn }, false) :=
      cachedSharedAst_hit P hlk1
    rw [from_source_eq P seed2 hcB] at h2
    simp only [Option.some.injEq, Prod.mk.injEq] at h2
    obtain ⟨hc2, hst2, hb2⟩ := h2
    have hcand2 : c2 = buildCandVal (buildHeap stA.heap e) e seed2 := by
      rw [← hheap1]
      exact hc2.symm
    have hH2 : st2.heap = buildHeap (buildHeap stA.heap e) e := by
      rw [← hheap1, ← hst2]
    rw [hH2, hcand1, hcand2]
    obtain ⟨⟨hf, he, hr, hi⟩, hfn⟩ := hwfeA
    -- abbreviations by statement: g := stA.heap; H1 := buildHeap g e;
    -- H2 := buildHeap H1 e; refs := extAt g (fileAt g e.astRef)
    have hxB : HExt stA.heap (buildHeap stA.heap e) := buildHeap_HExt stA.heap e
    have hxC : HExt (buildHeap stA.heap e) (buildHeap (buildHeap stA.heap e) e) :=
      buildHeap_HExt (buildHeap stA.heap e) e
    have hwfe1 : EntryWF (buildHeap stA.heap e) e :=
      EntryWF_mono hxB ⟨⟨hf, he, hr, hi⟩, hfn⟩
    -- the randomize target of c1 in the final heap is the fresh cell
    -- stA.heap.nodes.length
    have hfa1 : fileAt (buildHeap (buildHeap stA.heap e) e) stA.heap.files.length =
        stA.heap.exts.length := by
      have hstep : fileAt (buildHeap stA.heap e) stA.heap.files.length =
          stA.heap.exts.length := buildHeap_fileAt_new stA.heap e
      rw [← hstep]
      exact hxC.fileAt_eq (by simp [buildHeap])
    have hea1 : extAt (buildHeap (buildHeap stA.heap e) e) stA.heap.exts.length =
        (extAt stA.heap (fileAt stA.heap e.astRef)).set e.fnIndex
          stA.heap.nodes.length := by
      have hstep : extAt (buildHeap stA.heap e) stA.heap.exts.length =
          (extAt stA.heap (fileAt stA.heap e.astRef)).set e.fnIndex
            stA.heap.nodes.length := buildHeap_extAt_new stA.heap e
      rw [← hstep]
      exact hxC.extAt_eq (by simp [buildHeap])
    have htarget : (extAt (buildHeap (buildHeap stA.heap e) e)
        (fileAt (buildHeap (buildHeap stA.heap e) e)
          (buildCandVal stA.heap e seed1).ast)).getD
        (buildCandVal stA.heap e seed1).fn_index 0 = stA.heap.nodes.length := by
      show (extAt (buildHeap (buildHeap stA.heap e) e)
        (fileAt (buildHeap (buildHeap stA.heap e) e)
          stA.heap.files.length)).getD e.fnIndex 0 = stA.heap.nodes.length
      rw [hfa1, hea1]
      exact getD_set_self _ _ _ _ hi
    -- c2's reachable ext references in the final heap
    have hfa2 : fileAt (buildHeap (buildHeap stA.heap e) e)
        (buildCandVal (buildHeap stA.heap e) e seed2).ast =
        (buildHeap stA.heap e).exts.length :=
      buildHeap_fileAt_new (buildHeap stA.heap e) e
    have hea2 : extAt (buildHeap (buildHeap stA.heap e) e)
        (buildHeap stA.heap e).exts.length =
        (extAt (buildHeap stA.heap e) (fileAt (buildHeap stA.heap e) e.astRef)).set
          e.fnIndex (buildHeap stA.heap e).nodes.length :=
      buildHeap_extAt_new (buildHeap stA.heap e) e
    have hext1 : extAt (buildHeap stA.heap e) (fileAt (buildHeap stA.heap e) e.astRef) =
        extAt stA.heap (fileAt stA.heap e.astRef) := by
      rw [hxB.fileAt_eq hf]
      exact hxB.extAt_eq he
    -- every reference reachable from c2 differs from the fresh cell of c1
    have hdisjoint : ∀ x ∈ extAt (buildHeap (buildHeap stA.heap e) e)
        (fileAt (buildHeap (buildHeap stA.heap e) e)
          (buildCandVal (buildHeap stA.heap e) e seed2).ast),
        x ≠ stA.heap.nodes.length := by
      intro x hx
      rw [hfa2, hea2, hext1] at hx
      rcases mem_of_mem_set _ _ _ _ hx with h1 | h1
      · subst h1
        show (buildHeap stA.heap e).nodes.length ≠ stA.heap.nodes.length
        simp [buildHeap]
      · have hxlt : x < stA.heap.nodes.length := hr x h1
        omega
    constructor
    · intro h' c1' heq
      simp only [randomize_ast, htarget] at heq
      rcases hE : E (buildCandVal stA.heap e seed1).randState
          (nodeAt (buildHeap (buildHeap stA.heap e) e) stA.heap.nodes.length)
          with _ | ⟨n', s'⟩ <;> rw [hE] at heq
      · exact absurd heq (by simp)
      · simp only [Except.ok.injEq, Prod.mk.injEq] at heq
        obtain ⟨hh', hc1'⟩ := heq
        subst hh'
        have hderef : derefFile (setNode (buildHeap (buildHeap stA.heap e) e)
            stA.heap.nodes.length n') (buildCandVal (buildHeap stA.heap e) e seed2).ast =
            derefFile (buildHeap (buildHeap stA.heap e) e)
              (buildCandVal (buildHeap stA.heap e) e seed2).ast :=
          derefFile_setNode n' fun x hx => hdisjoint x hx
        show render (derefFile _ _) = render (derefFile _ _)
        rw [hderef]
    · intro h' c1' heq
      simp only [randomize_ast, htarget] at heq
      rcases hE : E (buildCandVal stA.heap e seed1).randState
          (nodeAt (buildHeap (buildHeap stA.heap e) e) stA.heap.nodes.length)
          with _ | ⟨n', s'⟩ <;> rw [hE] at heq
      · simp only [Except.error.injEq, Prod.mk.injEq] at heq
        rw [← heq.1]
      · exact absurd heq (by simp)

/-! ### Facts about the fixtures, and the witnesses -/

theorem wState_WF : StateWF wState := by
  constructor
  · decide
  · intro e he
    exact absurd he (List.not_mem_nil e)

theorem wParser_WF : ParserWF wParser := by
  intro s fn l i hp
  unfold wParser at hp
  split at hp
  · simp only [Option.some.injEq, Prod.mk.injEq] at hp
    rw [← hp.1, ← hp.2]
    decide
  · exact absurd hp (by simp)

theorem wState_CacheOK : CacheOK wParser wState.cache := by
  intro e he
  exact absurd he (List.not_mem_nil e)

/-- Witness for C1 at the concrete fixture run: building twice from
("src", "f"), then successfully randomizing the first candidate, leaves
the second candidate's rendered source unchanged. -/
theorem c1_candidates_isolated_witness :
    (get_source wRender wH3 wC2).1 = (get_source wRender wSt2.heap wC2).1 :=
  (c1_candidates_isolated wParser wEngine wRender wState "src" "f" 1 2 wC1 wC2
    wSt1 wSt2 true false wState_WF wParser_WF (by decide) (by decide)).1
    wH3 wC1r rfl

/-- Witness for C2: scoring wCand with artifact "a.o" succeeds and the
artifact is gone afterwards. -/
theorem c2_artifact_always_removed_witness :
    ("a.o" : String) ≠ "" ∧ "a.o" ∉ ([] : List String) :=
  ⟨by decide,
   (c2_artifact_always_removed wScorer wRender wHeap ["a.o"] wCand "a.o"
      (by decide)).1
     { score := 1, hash := "fp", source := some "[7]", profiler := () }
     wScoredCand [] rfl⟩

/-- Witness for C3 at concrete runs: a successful scoring sets both
fields, a failed scoring leaves both unset, and a fresh construction has
both unset. -/
theorem c3_score_fingerprint_in_sync_witness :
    (wScoredCand.score_value = some 1 ∧ wScoredCand.score_hash = some "fp") ∧
    (wClearedCand.score_value = none ∧ wClearedCand.score_hash = none) ∧
    (wC1.score_value = none ∧ wC1.score_hash = none) :=
  ⟨(c3_score_fingerprint_in_sync wScorer wRender wParser wEngine wHeap ["a.o"]
      wCand (some "a.o") wState "src" "f" 1).1
     { score := 1, hash := "fp", source := some "[7]", profiler := () }
     wScoredCand [] rfl,
   (c3_score_fingerprint_in_sync wScorer wRender wParser wEngine wHeap []
      wCand none wState "src" "f" 1).2.1 wClearedCand [] rfl,
   (c3_score_fingerprint_in_sync wScorer wRender wParser wEngine wHeap []
      wCand none wState "src" "f" 1).2.2.1 wC1 wSt1 true (by decide)⟩

/-- Witness for C4: the construction from ("src", "f") is copy-on-write
as described, at the concrete fixture run. -/
theorem c4_copy_on_write_construction_witness :
    ∃ e st1 b1, cachedSharedAst wParser wState "src" "f" = (some e, st1, b1) ∧
      wC1.orig_fn = e.fnRef ∧ wC1.fn_index = e.fnIndex ∧
      wC1.ast ≠ e.astRef ∧
      fileAt wSt1.heap wC1.ast ≠ fileAt wSt1.heap e.astRef ∧
      extAt wSt1.heap (fileAt wSt1.heap wC1.ast) =
        (extAt wSt1.heap (fileAt wSt1.heap e.astRef)).set e.fnIndex
          st1.heap.nodes.length ∧
      st1.heap.nodes.length ≠ e.fnRef ∧
      nodeAt wSt1.heap st1.heap.nodes.length = nodeAt wSt1.heap e.fnRef ∧
      (∀ m, derefFile (setNode wSt1.heap st1.heap.nodes.length m) e.astRef =
        derefFile wSt1.heap e.astRef) :=
  c4_copy_on_write_construction wParser wState "src" "f" 1 wC1 wSt1 true
    wState_WF wParser_WF (by decide)

/-- Witness for C5 (amended): a successful randomization clears the
rendering cache, and a failed one leaves heap and candidate untouched. -/
theorem c5_randomize_invalidation_witness :
    wRandCand.cacheSource = none ∧ (wHeap = wHeap ∧ wCachedCand = wCachedCand) :=
  ⟨(c5_randomize_invalidation wEngine wHeap wCand).1
     { nodes := [8], exts := [[0]], files := [0] } wRandCand rfl,
   (c5_randomize_invalidation wFailEngine wHeap wCachedCand).2
     wHeap wCachedCand rfl⟩

/-- Witness for C6 at concrete states: a hit on a one-entry cache, the
size bound, a miss-insert on the empty cache, and the LRU eviction on a
full cache. -/
theorem c6_cache_lru_memoization_witness :
    (wHitEntry.source = "src" ∧ wHitEntry.fnName = "f") ∧
    cachedSharedAst wParser wHitState "src" "f" =
      (some wHitEntry,
       { heap := wHitState.heap, cache := cacheTouch wHitState.cache "src" "f" },
       false) ∧
    (cachedSharedAst wParser wState "src" "f").2.1.cache.length ≤ 16 ∧
    (∃ e, (cachedSharedAst wParser wState "src" "f").1 = some e ∧
      (cachedSharedAst wParser wState "src" "f").2.2 = true ∧
      e.source = "src" ∧ e.fnName = "f" ∧
      (cachedSharedAst wParser wState "src" "f").2.1.cache =
        (e :: wState.cache).take 16 ∧
      cacheLookup (cachedSharedAst wParser wState "src" "f").2.1.cache
        "src" "f" = some e) ∧
    (∃ e, (cachedSharedAst wParser wFullState "src" "f").2.1.cache =
      e :: wFullState.cache.dropLast) :=
  ⟨(c6_cache_lru_memoization wParser wHitState "src" "f").1 wHitEntry (by decide),
   (c6_cache_lru_memoization wParser wHitState "src" "f").2.1 wHitEntry (by decide),
   (c6_cache_lru_memoization wParser wState "src" "f").2.2.2.1 (by decide),
   (c6_cache_lru_memoization wParser wState "src" "f").2.2.1 [10, 20, 30] 1
     (by decide) (by decide),
   (c6_cache_lru_memoization wParser wFullState "src" "f").2.2.2.2 [10, 20, 30] 1
     (by decide) (by decide) (by decide)⟩

/-- Witness for C8: the fixture construction renders to exactly the
rendering of the cached tree. -/
theorem c8_no_mutation_round_trip_witness :
    ∃ e, cacheLookup wSt1.cache "src" "f" = some e ∧
      (get_source wRender wSt1.heap wC1).1 = wRender (derefFile wSt1.heap e.astRef) ∧
      nodeAt wSt1.heap ((extAt wSt1.heap (fileAt wSt1.heap wC1.ast)).getD
        wC1.fn_index 0) = nodeAt wSt1.heap e.fnRef :=
  c8_no_mutation_round_trip wParser wRender wState "src" "f" 1 wC1 wSt1 true
    wState_WF wParser_WF (by decide)

/-- Witness for C9: a key `wParser` rejects is retried, not replayed from
the cache. -/
theorem c9_failure_never_memoized_witness :
    wParser "x" "f" = none ∧
    cachedSharedAst wParser wState "x" "f" = (none, wState, true) ∧
    (cachedSharedAst wParser
      (cachedSharedAst wParser wState "x" "f").2.1 "x" "f").2.2 = true :=
  ⟨by decide,
   (c9_failure_never_memoized wParser wState "x" "f" wState_CacheOK (by decide)).1,
   (c9_failure_never_memoized wParser wState "x" "f" wState_CacheOK (by decide)).2.1⟩

/-- Witness for C10: with a `None` artifact the scorer's failure is the
call's outcome and the filesystem is untouched; with an empty-string
artifact the scorer's success is the outcome and the filesystem is
untouched. -/
theorem c10_absent_artifact_no_removal_witness :
    (([] : List String) = [] ∧ wScorer none = none) ∧
    (["b.o"] = ["b.o"] ∧ wScorer (some "") = some (1, "fp")) :=
  ⟨(c10_absent_artifact_no_removal wScorer wRender wHeap [] wCand none
      (Or.inl rfl)).1 wClearedCand [] rfl,
   (c10_absent_artifact_no_removal wScorer wRender wHeap ["b.o"] wCand (some "")
      (Or.inr rfl)).2
     { score := 1, hash := "fp", source := some "[7]", profiler := () }
     wScoredCand ["b.o"] rfl⟩

end DP
